import Mathlib

/-!
Shallow embedding of `src/mod.ts` (`AccumulatingProcessor`): a batch
processor that accumulates items by count, delay, or size, dispatches each
batch to a caller-supplied processing function, and routes per-item outcomes
back through individual promises.

JavaScript numbers used in the threshold configuration and by the
user-supplied `size.calculate` function are modelled as `Int`; machine state
(the open batch, the `#all` registry, pending timers, dispatched batches,
per-entry settlements) is explicit, and the asynchronous parts (processing
function settling, the delay timer firing, the registry-removal
continuation) are events of a small-step machine whose interleavings
over-approximate the JavaScript event loop.
-/

namespace AccumulatingProcessor

/-- A JavaScript value as classified by `mod.ts` lines 242-246: `undefined`,
a value that is an `instanceof Error` (`err`), or any other defined value
(`ok`). -/
inductive JSVal (α ε : Type) where
  | undef : JSVal α ε
  | ok : α → JSVal α ε
  | err : ε → JSVal α ε
  deriving DecidableEq, Repr

/-- Whether the value is classified as an error object (`instanceof Error`,
`mod.ts` line 242). -/
def JSVal.isErr : JSVal α ε → Bool
  | .err _ => true
  | _ => false

/-- Outcome of evaluating `results[index]` (`mod.ts` line 237): either the
lookup returns a value, or it throws one (possible in JavaScript when the
result object has a throwing getter or proxy trap; the `try`/`catch` at
lines 236-240 anticipates exactly this). -/
inductive LookupResult (α ε : Type) where
  | returns : JSVal α ε → LookupResult α ε
  | throws : JSVal α ε → LookupResult α ε
  deriving DecidableEq, Repr

/-- A value the processing function fulfilled with: either `undefined`/`null`
(not indexable, `mod.ts` line 232) or an indexable object, modelled by its
lookup behaviour at every index. -/
inductive FnResult (α ε : Type) where
  | nonIndexable : FnResult α ε
  | indexable : (Nat → LookupResult α ε) → FnResult α ε

/-- How one invocation of the (wrapped, `mod.ts` line 131) processing
function settles: the wrapper `async (batch) => await fn(batch)` turns a
synchronous throw and a rejecting awaitable alike into a rejection
(`failure`), and any fulfillment into `success`. -/
inductive FnOutcome (α ε : Type) where
  | failure : JSVal α ε → FnOutcome α ε
  | success : FnResult α ε → FnOutcome α ε

/-- How one entry's promise was settled. -/
inductive Settlement (α ε : Type) where
  | fulfilled : JSVal α ε → Settlement α ε
  | rejected : JSVal α ε → Settlement α ε
  deriving DecidableEq, Repr

/-- The per-entry settlement of `mod.ts` lines 234-247: retrieve
`results[index]` (or `undefined` when the result is not indexable), with a
thrown value caught and used as the result; then reject if the final value
is an `instanceof Error`, otherwise resolve with it. -/
def settleEntry (res : FnResult α ε) (index : Nat) : Settlement α ε :=
  let result : JSVal α ε :=
    match res with
    | .nonIndexable => .undef
    | .indexable lookup =>
      match lookup index with
      | .returns v => v
      | .throws v => v
  match result with
  | .err e => .rejected (.err e)
  | v => .fulfilled v

/-- Settlements of a whole batch (`mod.ts` lines 228-251): on fulfillment,
each entry at index `i` is settled from `results[i]`; on rejection, every
entry is rejected with the single error. -/
def dispatchSettlements (items : List τ) (outcome : FnOutcome α ε) :
    List (Settlement α ε) :=
  match outcome with
  | .failure e => items.map (fun _ => .rejected e)
  | .success res => (List.range items.length).map (settleEntry res)

/-- Indexing an actual JavaScript array of values: never throws, and an
index past the end yields `undefined`. -/
def arrayLookup (l : List (JSVal α ε)) : Nat → LookupResult α ε :=
  fun i => .returns (l.getD i .undef)

/-- The `size` threshold options (`mod.ts` lines 54-72), after validation
(`strict` defaulted to `true`). -/
structure SizeOptions (τ : Type) where
  max : Int
  calculate : τ → Int
  strict : Bool

/-- Validated threshold options (`mod.ts` lines 28-73): each of the three
thresholds is independently optional. -/
structure ThresholdOptions (τ : Type) where
  count : Option Int := none
  delay : Option Int := none
  size : Option (SizeOptions τ) := none

/-- The mutable part of a `Batch` record that the synchronous logic reads
(`mod.ts` lines 3-9), with object identity made explicit as `id`. -/
structure Batch (τ : Type) where
  id : Nat
  entries : List τ
  size : Int
  deriving DecidableEq, Repr

/-- Machine state of one `AccumulatingProcessor` instance.

* `current` — the currently accumulating batch (`#current`);
* `registry` — ids in the `#all` set, in insertion order;
* `timers` — ids of batches with an armed, uncleared, unfired delay timer;
* `dispatched` — permanent log, in invocation order, of the batches passed
  to the processing function;
* `inFlight` — dispatched batches whose processing function has not yet
  settled;
* `outcomes` — for each completed batch, the recorded settlement of each of
  its entries, in entry order;
* `signalled` — ids of batches whose completion signal (`batch.resolve`)
  has fired;
* `nextId` — the next fresh batch identity. -/
structure PState (τ α ε : Type) where
  current : Option (Batch τ)
  registry : List Nat
  timers : List Nat
  dispatched : List (Nat × List τ)
  inFlight : List (Nat × List τ)
  outcomes : List (Nat × List (Settlement α ε))
  signalled : List Nat
  nextId : Nat
  deriving DecidableEq, Repr

/-- The state of a freshly constructed processor: no open batch, empty
registry, nothing dispatched. -/
def initState : PState τ α ε :=
  { current := none
    registry := []
    timers := []
    dispatched := []
    inFlight := []
    outcomes := []
    signalled := []
    nextId := 0 }

/-- Method `release()` (`mod.ts` lines 221-256), synchronous part: detach the open
batch if any, clear its delay timer, and invoke the processing function with
its items (the invocation is logged in `dispatched` and the pending
continuation in `inFlight`; the asynchronous settlement is the `complete`
event). With no open batch this is a no-op. -/
def release (s : PState τ α ε) : PState τ α ε :=
  match s.current with
  | none => s
  | some b =>
    { s with
      current := none
      timers := s.timers.erase b.id
      dispatched := s.dispatched ++ [(b.id, b.entries)]
      inFlight := s.inFlight ++ [(b.id, b.entries)] }

/-- The sizing error thrown by `process` (`mod.ts` line 155). -/
structure SizeError where
  size : Int
  max : Int
  deriving DecidableEq, Repr

/-- Lines 148-163 of `process`: compute the item's size when a size threshold
is configured, throw when strict and oversize, and pre-release the open
batch when the item would push its accumulated size over the limit. Returns
the computed size together with the possibly updated state. -/
def checkSize (opts : ThresholdOptions τ) (item : τ) (s : PState τ α ε) :
    Except SizeError (Int × PState τ α ε) :=
  match opts.size with
  | none => .ok (0, s)
  | some so =>
    let size := so.calculate item
    if size > so.max && so.strict then
      .error { size := size, max := so.max }
    else
      match s.current with
      | some c =>
        if c.size + size > so.max then .ok (size, release s) else .ok (size, s)
      | none => .ok (size, s)

/-- Lines 165-188 of `process`: if no batch is open, create one with a fresh
identity, add it to the `#all` registry, and arm a delay timer when a delay
threshold is configured. -/
def ensureCurrent (opts : ThresholdOptions τ) (s : PState τ α ε) :
    PState τ α ε :=
  match s.current with
  | some _ => s
  | none =>
    { s with
      current := some { id := s.nextId, entries := [], size := 0 }
      registry := s.registry ++ [s.nextId]
      timers := if opts.delay.isSome then s.timers ++ [s.nextId] else s.timers
      nextId := s.nextId + 1 }

/-- Lines 190-197 of `process`: append the new entry to the open batch and add
the item's size to the batch's accumulated size. -/
def appendEntry (item : τ) (size : Int) (s : PState τ α ε) : PState τ α ε :=
  match s.current with
  | none => s
  | some c =>
    { s with
      current := some
        { c with entries := c.entries ++ [item], size := c.size + size } }

/-- The post-append release condition of `mod.ts` lines 199-208: count
configured and `count.max <= entries.length`, or size configured and
`size.max <= size`. -/
def thresholdReached (opts : ThresholdOptions τ) (b : Batch τ) : Bool :=
  (match opts.count with
   | some m => decide (m ≤ (b.entries.length : Int))
   | none => false) ||
  (match opts.size with
   | some so => decide (so.max ≤ b.size)
   | none => false)

/-- Lines 199-210 of `process`: release the open batch when a threshold has
been reached after the append. -/
def postCheck (opts : ThresholdOptions τ) (s : PState τ α ε) : PState τ α ε :=
  match s.current with
  | some b => if thresholdReached opts b then release s else s
  | none => s

/-- Method `process(item)` (`mod.ts` lines 147-216): the full synchronous
submission path. Throws (returns `.error`) only on the strict oversize
check, before any state change. -/
def process (opts : ThresholdOptions τ) (item : τ) (s : PState τ α ε) :
    Except SizeError (PState τ α ε) :=
  match checkSize opts item s with
  | .error e => .error e
  | .ok (size, s₁) =>
    .ok (postCheck opts (appendEntry item size (ensureCurrent opts s₁)))

/-- Method `flush()` (`mod.ts` lines 269-274), synchronous part: snapshot the
`#all` registry, then release the open batch. The returned future is
`Promise.all` over the snapshotted batches' completion signals, modelled by
`flushResolved`. -/
def flush (s : PState τ α ε) : List Nat × PState τ α ε :=
  (s.registry, release s)

/-- Whether the future returned by `flush` has resolved: `Promise.all` over
the snapshot resolves exactly when every snapshotted batch's completion
signal has fired. -/
def flushResolved (snapshot : List Nat) (s : PState τ α ε) : Bool :=
  snapshot.all (fun i => decide (i ∈ s.signalled))

/-- The delay-timer callback for the batch with identity `i` (`mod.ts`
lines 180-184): fires only if armed and uncleared; upon firing it is
consumed, and it releases only if the batch it was armed for is still the
currently open batch (object identity, `this.#current === next`). -/
def fireTimer (i : Nat) (s : PState τ α ε) : PState τ α ε :=
  if i ∈ s.timers then
    let s₁ := { s with timers := s.timers.erase i }
    match s₁.current with
    | some b => if b.id = i then release s₁ else s₁
    | none => s₁
  else s

/-- The processing-function invocation for batch `i` settles with
`outcome` (`mod.ts` lines 228-254): the `then`/`catch` handlers settle every
entry of the batch (recorded in `outcomes`), and the `finally` handler then
fires the batch's completion signal (`batch.resolve()`). -/
def complete (i : Nat) (outcome : FnOutcome α ε) (s : PState τ α ε) :
    PState τ α ε :=
  match s.inFlight.find? (fun p => p.1 = i) with
  | none => s
  | some p =>
    { s with
      inFlight := s.inFlight.filter (fun q => q.1 ≠ i)
      outcomes := s.outcomes ++ [(i, dispatchSettlements p.2 outcome)]
      signalled := s.signalled ++ [i] }

/-- The registry-removal continuation (`mod.ts` lines 175-177):
`next.promise.then(() => this.#all.delete(next))` runs only after the
batch's completion signal has fired. -/
def unregister (i : Nat) (s : PState τ α ε) : PState τ α ε :=
  if i ∈ s.signalled then { s with registry := s.registry.erase i } else s

/-- Events of one processor instance: the caller's synchronous calls
(`proc`, `rel`, `flushEv`) and the event-loop callbacks (`timer`,
`complete`, `unreg`). -/
inductive Event (τ α ε : Type) where
  | proc : τ → Event τ α ε
  | rel : Event τ α ε
  | flushEv : Event τ α ε
  | timer : Nat → Event τ α ε
  | complete : Nat → FnOutcome α ε → Event τ α ε
  | unreg : Nat → Event τ α ε

/-- One step of the machine. A `proc` event whose submission throws the
strict-oversize error leaves the state unchanged (the throw happens before
any mutation). -/
def exec (opts : ThresholdOptions τ) (e : Event τ α ε) (s : PState τ α ε) :
    PState τ α ε :=
  match e with
  | .proc item =>
    match process opts item s with
    | .ok s' => s'
    | .error _ => s
  | .rel => release s
  | .flushEv => (flush s).2
  | .timer i => fireTimer i s
  | .complete i o => complete i o s
  | .unreg i => unregister i s

/-- Run a sequence of events from a state. -/
def run (opts : ThresholdOptions τ) (evs : List (Event τ α ε))
    (s : PState τ α ε) : PState τ α ε :=
  evs.foldl (fun s e => exec opts e s) s

/-- States reachable from a freshly constructed processor. -/
def Reachable (opts : ThresholdOptions τ) (s : PState τ α ε) : Prop :=
  ∃ evs, s = run opts evs initState

/-! ### Basic lemmas about the result-mapping protocol -/

/-- Element `i` of the settlements of a successfully fulfilled dispatch is
the settlement of entry `i`. -/
theorem dispatchSettlements_success_getD (items : List τ) (res : FnResult α ε)
    (i : Nat) (hi : i < items.length) :
    (dispatchSettlements items (.success res)).getD i (.fulfilled .undef) =
      settleEntry res i := by
  unfold dispatchSettlements
  rw [List.getD_eq_getElem?_getD, List.getElem?_map, List.getElem?_range hi]
  rfl

/-- The settlements list always has one settlement per entry. -/
theorem dispatchSettlements_length (items : List τ) (o : FnOutcome α ε) :
    (dispatchSettlements items o).length = items.length := by
  cases o <;> simp [dispatchSettlements]

/-- C1: for a batch whose processing-function invocation succeeds with an
indexable result, the entry at submission index `i` is settled from
`result[i]`: an `instanceof Error` value rejects that entry's promise, any
other retrieved value fulfills it, and the settlement at index `i` depends
only on the lookup at index `i`, so one error value does not affect
batch-mates. -/
theorem C1_result_mapping (items : List τ) (lookup : Nat → LookupResult α ε)
    (i : Nat) (hi : i < items.length) :
    (dispatchSettlements items (.success (.indexable lookup))).length =
      items.length ∧
    (∀ e, lookup i = .returns (.err e) →
      (dispatchSettlements items
        (.success (.indexable lookup))).getD i (.fulfilled .undef) =
        .rejected (.err e)) ∧
    (∀ v, lookup i = .returns v → v.isErr = false →
      (dispatchSettlements items
        (.success (.indexable lookup))).getD i (.fulfilled .undef) =
        .fulfilled v) ∧
    (∀ lk : Nat → LookupResult α ε, lk i = lookup i →
      (dispatchSettlements items
        (.success (.indexable lk))).getD i (.fulfilled .undef) =
      (dispatchSettlements items
        (.success (.indexable lookup))).getD i (.fulfilled .undef)) := by
  refine ⟨dispatchSettlements_length items _, ?_, ?_, ?_⟩
  · intro e he
    rw [dispatchSettlements_success_getD items _ i hi]
    simp [settleEntry, he]
  · intro v hv hne
    rw [dispatchSettlements_success_getD items _ i hi]
    cases v with
    | undef => simp [settleEntry, hv]
    | ok a => simp [settleEntry, hv]
    | err e => simp [JSVal.isErr] at hne
  · intro lk hlk
    rw [dispatchSettlements_success_getD items _ i hi,
      dispatchSettlements_success_getD items _ i hi]
    simp [settleEntry, hlk]

/-- Concrete instance of `C1_result_mapping`, mirroring the spec's
partial-failure example: a three-item batch whose processing function
fulfills with `[ok 5, ok 1, Error 9]`. -/
theorem C1_result_mapping_witness :
    (dispatchSettlements [2, 1, 0]
      (.success (.indexable
        (arrayLookup [JSVal.ok 5, .ok 1, .err 9])))).length = 3 ∧
    (dispatchSettlements ([2, 1, 0] : List Nat)
      ((.success (.indexable (arrayLookup [JSVal.ok 5, .ok 1, .err 9]))) :
        FnOutcome Nat Nat)).getD 2 (.fulfilled .undef) = .rejected (.err 9) := by
  refine ⟨(C1_result_mapping [2, 1, 0] _ 2 (by decide)).1, ?_⟩
  exact (C1_result_mapping [2, 1, 0] _ 2 (by decide)).2.1 9 (by decide)

/-- C2 as written is false on the code: when indexing the result throws an
`instanceof Error` value, the entry is not fulfilled with the unit/void
default — lines 236-243 catch the thrown value, use it as the entry's
result, and reject the entry with it. Concretely, a one-item batch whose
successful result throws `Error 9` on every lookup rejects its entry. -/
theorem C2_counterexample :
    (dispatchSettlements [()]
      ((.success (.indexable (fun _ => .throws (.err 9)))) :
        FnOutcome Nat Nat)).getD 0 (.fulfilled .undef) = .rejected (.err 9) ∧
    (Settlement.rejected (.err 9) : Settlement Nat Nat) ≠
      .fulfilled .undef := by
  exact ⟨by decide, by decide⟩

/-- C2 amended: if the processing function's fulfilled result is not
indexable, or is shorter than the batch (an array lookup past the end
yields `undefined`), the entry is fulfilled with the unit/void default
rather than rejected; but when indexing throws, the thrown value is treated
exactly like a retrieved value — the entry rejects with it if it is an
error object and fulfills with it otherwise. -/
theorem C2_indexing_leniency (items : List τ) (i : Nat)
    (hi : i < items.length) :
    ((dispatchSettlements items
      ((.success .nonIndexable) : FnOutcome α ε)).getD i (.fulfilled .undef) =
      .fulfilled .undef) ∧
    (∀ l : List (JSVal α ε), l.length ≤ i →
      (dispatchSettlements items
        (.success (.indexable (arrayLookup l)))).getD i (.fulfilled .undef) =
        .fulfilled .undef) ∧
    (∀ (lookup : Nat → LookupResult α ε) e, lookup i = .throws (.err e) →
      (dispatchSettlements items
        (.success (.indexable lookup))).getD i (.fulfilled .undef) =
        .rejected (.err e)) ∧
    (∀ (lookup : Nat → LookupResult α ε) v, lookup i = .throws v →
      v.isErr = false →
      (dispatchSettlements items
        (.success (.indexable lookup))).getD i (.fulfilled .undef) =
        .fulfilled v) := by
  refine ⟨?_, ?_, ?_, ?_⟩
  · rw [dispatchSettlements_success_getD items _ i hi]
    simp [settleEntry]
  · intro l hl
    rw [dispatchSettlements_success_getD items _ i hi]
    simp [settleEntry, arrayLookup, List.getD_eq_getElem?_getD,
      List.getElem?_eq_none hl]
  · intro lookup e he
    rw [dispatchSettlements_success_getD items _ i hi]
    simp [settleEntry, he]
  · intro lookup v hv hne
    rw [dispatchSettlements_success_getD items _ i hi]
    cases v with
    | undef => simp [settleEntry, hv]
    | ok a => simp [settleEntry, hv]
    | err e => simp [JSVal.isErr] at hne

/-- Concrete instance of `C2_indexing_leniency`: a two-item batch whose
result array has a single element — the out-of-range entry fulfills with
`undefined`. -/
theorem C2_indexing_leniency_witness :
    (dispatchSettlements ([7, 8] : List Nat)
      ((.success (.indexable (arrayLookup [JSVal.ok 4]))) :
        FnOutcome Nat Nat)).getD 1 (.fulfilled .undef) =
      .fulfilled .undef := by
  exact (C2_indexing_leniency [7, 8] 1 (by decide)).2.1 [JSVal.ok 4] (by decide)

/-- C3: when the processing function throws synchronously or its awaitable
rejects with error `e`, every entry of the dispatched batch is rejected
with that same single error; and settling one batch never touches another
batch's recorded settlements — `complete` preserves all previously recorded
outcomes and only ever adds an outcome for the completing batch itself. -/
theorem C3_failure_rejects_all (items : List τ) (e : JSVal α ε) :
    dispatchSettlements items (.failure e) =
      items.map (fun _ => .rejected e) ∧
    (dispatchSettlements items ((.failure e) : FnOutcome α ε)).length =
      items.length ∧
    (∀ (s : PState τ α ε) (i : Nat) (o : FnOutcome α ε) p,
      p ∈ s.outcomes → p ∈ (complete i o s).outcomes) ∧
    (∀ (s : PState τ α ε) (i : Nat) (o : FnOutcome α ε) p,
      p ∈ (complete i o s).outcomes → p ∈ s.outcomes ∨ p.1 = i) := by
  refine ⟨rfl, dispatchSettlements_length items _, ?_, ?_⟩
  · intro s i o p hp
    unfold complete
    cases s.inFlight.find? (fun q => q.1 = i) with
    | none => exact hp
    | some q => simp [hp]
  · intro s i o p hp
    unfold complete at hp
    cases hq : s.inFlight.find? (fun q => q.1 = i) with
    | none => rw [hq] at hp; exact Or.inl hp
    | some q =>
      rw [hq] at hp
      simp at hp
      rcases hp with hp | hp
      · exact Or.inl hp
      · exact Or.inr (by simp [hp])

/-- Concrete instance of `C3_failure_rejects_all`: a two-item batch whose
processing function rejects with the non-`Error` value `ok 3` (JavaScript
allows rejecting with any value) rejects both entries with it. -/
theorem C3_failure_rejects_all_witness :
    dispatchSettlements ([4, 5] : List Nat)
      ((.failure (.ok 3)) : FnOutcome Nat Nat) =
      [.rejected (.ok 3), .rejected (.ok 3)] ∧
    (1, [Settlement.fulfilled (JSVal.ok 2)]) ∈
      (complete 0 ((.failure (.ok 3)) : FnOutcome Nat Nat)
        { (initState : PState Nat Nat Nat) with
          inFlight := [(0, [9])]
          outcomes := [(1, [Settlement.fulfilled (JSVal.ok 2)])] }).outcomes := by
  constructor
  · exact (C3_failure_rejects_all [4, 5] (.ok 3)).1.trans (by decide)
  · exact (C3_failure_rejects_all ([] : List Nat)
      ((.ok 3) : JSVal Nat Nat)).2.2.1 _ 0 _ _ (by decide)

/-- C4: under a strict size threshold (the default), an item whose computed
size exceeds `size.max` makes `process` throw synchronously: no state is
produced, and the machine state — the open batch, its entries and
accumulated size, and the registry — is left unchanged. -/
theorem C4_strict_oversize (opts : ThresholdOptions τ) (item : τ)
    (s : PState τ α ε) (so : SizeOptions τ) (hso : opts.size = some so)
    (hstrict : so.strict = true) (hover : so.calculate item > so.max) :
    process opts item s =
      .error { size := so.calculate item, max := so.max } ∧
    exec opts (.proc item) s = s := by
  have hcs : checkSize opts item s =
      .error { size := so.calculate item, max := so.max } := by
    unfold checkSize
    rw [hso]
    simp [hover, hstrict]
  have hp : process opts item s =
      .error { size := so.calculate item, max := so.max } := by
    unfold process
    rw [hcs]
  exact ⟨hp, by simp [exec, hp]⟩

/-- Concrete instance of `C4_strict_oversize`: `size.max = 0` with the item
itself as its size, submitting `1`. -/
theorem C4_strict_oversize_witness :
    process { size := some { max := 0, calculate := fun n => n, strict := true } }
      1 (initState : PState Int Nat Nat) = .error { size := 1, max := 0 } ∧
    exec { size := some { max := 0, calculate := fun n => n, strict := true } }
      (.proc 1) (initState : PState Int Nat Nat) = initState := by
  exact C4_strict_oversize
    { size := some { max := 0, calculate := fun n => n, strict := true } } 1
    initState { max := 0, calculate := fun n => n, strict := true } rfl rfl
    (by decide)

/-! ### Threshold-driven release -/

/-- Unfolding one step of `run`. -/
theorem run_cons (opts : ThresholdOptions τ) (e : Event τ α ε)
    (evs : List (Event τ α ε)) (s : PState τ α ε) :
    run opts (e :: evs) s = run opts evs (exec opts e s) := rfl

/-- Explicit state equation for one submission under a count-only
threshold, starting with no open batch. -/
theorem countOnly_exec_proc_none (k : Int) (item : τ) (s : PState τ α ε)
    (hcur : s.current = none) :
    exec { count := some k } (.proc item) s =
      if k ≤ (1 : Int) then
        { s with
          current := none,
          registry := s.registry ++ [s.nextId],
          timers := s.timers.erase s.nextId,
          dispatched := s.dispatched ++ [(s.nextId, [item])],
          inFlight := s.inFlight ++ [(s.nextId, [item])],
          nextId := s.nextId + 1 }
      else
        { s with
          current := some { id := s.nextId, entries := [item], size := 0 },
          registry := s.registry ++ [s.nextId],
          nextId := s.nextId + 1 } := by
  by_cases h1 : k ≤ (1 : Int) <;>
    simp [exec, process, checkSize, ensureCurrent, appendEntry, postCheck,
      thresholdReached, release, hcur, h1]

/-- Explicit state equation for one submission under a count-only
threshold, appending to an open batch. -/
theorem countOnly_exec_proc_some (k : Int) (item : τ) (s : PState τ α ε)
    (c : Batch τ) (hcur : s.current = some c) :
    exec { count := some k } (.proc item) s =
      if k ≤ ((c.entries.length : Int) + 1) then
        { s with
          current := none,
          timers := s.timers.erase c.id,
          dispatched := s.dispatched ++ [(c.id, c.entries ++ [item])],
          inFlight := s.inFlight ++ [(c.id, c.entries ++ [item])] }
      else
        { s with
          current :=
            some { id := c.id, entries := c.entries ++ [item], size := c.size } } := by
  by_cases h1 : k ≤ ((c.entries.length : Int) + 1) <;>
    simp [exec, process, checkSize, ensureCurrent, appendEntry, postCheck,
      thresholdReached, release, hcur, h1]

/-- With only a count threshold `k ≥ 1`, running submissions preserves:
every dispatched batch has exactly `k` items, and the open batch has fewer
than `k`. -/
theorem countOnly_run_inv (k : Int) (hk : 1 ≤ k) (items : List τ)
    (s : PState τ α ε)
    (hd : ∀ p ∈ s.dispatched, (p.2.length : Int) = k)
    (hc : ∀ b, s.current = some b → (b.entries.length : Int) < k) :
    (∀ p ∈ (run { count := some k } (items.map .proc) s).dispatched,
      (p.2.length : Int) = k) ∧
    (∀ b, (run { count := some k } (items.map .proc) s).current = some b →
      (b.entries.length : Int) < k) := by
  induction items generalizing s with
  | nil => exact ⟨hd, hc⟩
  | cons item rest ih =>
    rw [List.map_cons, run_cons]
    cases hcur : s.current with
    | none =>
      rw [countOnly_exec_proc_none k item s hcur]
      by_cases h1 : k ≤ (1 : Int)
      · rw [if_pos h1]
        apply ih
        · intro p hp
          rcases List.mem_append.mp hp with hp | hp
          · exact hd p hp
          · rw [List.mem_singleton.mp hp]
            simp
            omega
        · intro b hb
          exact absurd hb (by simp)
      · rw [if_neg h1]
        apply ih
        · exact hd
        · intro b hb
          simp only [Option.some.injEq] at hb
          rw [← hb]
          simp
          omega
    | some c =>
      rw [countOnly_exec_proc_some k item s c hcur]
      have hlt := hc c hcur
      by_cases h1 : k ≤ ((c.entries.length : Int) + 1)
      · rw [if_pos h1]
        apply ih
        · intro p hp
          rcases List.mem_append.mp hp with hp | hp
          · exact hd p hp
          · rw [List.mem_singleton.mp hp]
            simp
            omega
        · intro b hb
          exact absurd hb (by simp)
      · rw [if_neg h1]
        apply ih
        · exact hd
        · intro b hb
          simp only [Option.some.injEq] at hb
          rw [← hb]
          simp
          omega

/-- C5: after the submitted item is appended, the batch is released in the
same call if and only if a count threshold is configured with
`count.max ≤` the entry count, or a size threshold is configured with
`size.max ≤` the accumulated size; consequently, with only a count
threshold `k`, every batch dispatched by submissions alone has exactly `k`
items, and after a final release every dispatched batch except possibly the
last still has exactly `k` items. -/
theorem C5_release_iff_threshold :
    (∀ (opts : ThresholdOptions τ) (item : τ) (s s₁ : PState τ α ε)
      (size : Int) (b : Batch τ),
      checkSize opts item s = .ok (size, s₁) →
      (appendEntry item size (ensureCurrent opts s₁)).current = some b →
      (process opts item s =
        .ok (postCheck opts (appendEntry item size (ensureCurrent opts s₁))) ∧
      (((postCheck opts (appendEntry item size
            (ensureCurrent opts s₁))).dispatched =
          (appendEntry item size (ensureCurrent opts s₁)).dispatched ++
            [(b.id, b.entries)] ∧
        (postCheck opts (appendEntry item size
            (ensureCurrent opts s₁))).current = none) ↔
        thresholdReached opts b = true) ∧
      (thresholdReached opts b = true ↔
        ((∃ m, opts.count = some m ∧ m ≤ (b.entries.length : Int)) ∨
         (∃ so, opts.size = some so ∧ so.max ≤ b.size))))) ∧
    (∀ k : Int, 1 ≤ k → ∀ items : List τ,
      (∀ p ∈ (run { count := some k } (items.map .proc)
          (initState : PState τ α ε)).dispatched, (p.2.length : Int) = k) ∧
      (∀ p ∈ (release (run { count := some k } (items.map .proc)
          (initState : PState τ α ε))).dispatched.dropLast,
        (p.2.length : Int) = k)) := by
  constructor
  · intro opts item s s₁ size b hcs hcur
    refine ⟨?_, ?_, ?_⟩
    · unfold process
      rw [hcs]
    · by_cases ht : thresholdReached opts b
      · simp only [postCheck, hcur, ht, if_true]
        simp [release, hcur, ht]
      · simp only [postCheck, hcur]
        rw [if_neg ht]
        apply iff_of_false
        · intro h
          have := congrArg List.length h.1
          simp at this
        · exact ht
    · unfold thresholdReached
      rcases hoc : opts.count with _ | m <;>
        rcases hos : opts.size with _ | so <;> simp
  · intro k hk items
    have h := countOnly_run_inv k hk items (initState : PState τ α ε)
      (by intro p hp; simp [initState] at hp)
      (by intro b hb; simp [initState] at hb)
    refine ⟨h.1, ?_⟩
    cases hcur : (run { count := some k } (items.map .proc)
        (initState : PState τ α ε)).current with
    | none =>
      simp only [release, hcur]
      intro p hp
      exact h.1 p (List.dropLast_sublist _ |>.mem hp)
    | some b =>
      simp only [release, hcur]
      intro p hp
      rw [List.dropLast_concat] at hp
      exact h.1 p hp

/-- Concrete instance of `C5_release_iff_threshold`: with `count.max = 2`,
submitting `[10, 11, 12]` dispatches a first batch of exactly two items,
and the first submission alone does not release. -/
theorem C5_release_iff_threshold_witness :
    (((0, [10, 11]) : Nat × List Nat).2.length : Int) = 2 ∧
    process ({ count := some 2 } : ThresholdOptions Nat) 10
      (initState : PState Nat Nat Nat) =
      .ok (postCheck { count := some 2 }
        (appendEntry 10 0 (ensureCurrent { count := some 2 } initState))) := by
  constructor
  · exact ((C5_release_iff_threshold (τ := Nat) (α := Nat) (ε := Nat)).2 2
      (by decide) [10, 11, 12]).1 (0, [10, 11]) (by decide)
  · exact ((C5_release_iff_threshold (τ := Nat) (α := Nat) (ε := Nat)).1
      { count := some 2 } 10 initState initState 0
      { id := 0, entries := [10], size := 0 } rfl rfl).1

/-- C6 as written is false on the code when the size function can return
negative values: with `size.max = 2`, `strict = false` and the item itself
as its size, submitting `-10` and then the oversized item `3` neither
releases the open batch nor dispatches `3` alone — no batch is dispatched
at all, and `3` joins the already open batch, whose accumulated size `-7`
stays below the cap. -/
theorem C6_counterexample :
    (run { size := some { max := 2, calculate := fun n => n, strict := false } }
      [.proc (-10), .proc 3] (initState : PState Int Nat Nat)).dispatched =
      [] ∧
    (run { size := some { max := 2, calculate := fun n => n, strict := false } }
      [.proc (-10), .proc 3] (initState : PState Int Nat Nat)).current =
      some { id := 0, entries := [-10, 3], size := -7 } :=
  ⟨by decide, by decide⟩

/-- C6 amended: under a non-strict size threshold, an item whose computed
size exceeds `size.max` is not rejected, and — provided the open batch's
accumulated size is nonnegative, as is always the case when the size
function never returns a negative size — any open batch is released before
the item is enqueued, the item is placed in a freshly created batch, and
that batch is released immediately, so the oversized item is dispatched
alone. -/
theorem C6_nonstrict_oversize (opts : ThresholdOptions τ) (item : τ)
    (s : PState τ α ε) (so : SizeOptions τ) (hso : opts.size = some so)
    (hstrict : so.strict = false) (hover : so.calculate item > so.max)
    (hnn : ∀ b, s.current = some b → 0 ≤ b.size) :
    ∃ s', process opts item s = .ok s' ∧ s'.current = none ∧
      s'.dispatched = s.dispatched ++
        (match s.current with
         | some b => [(b.id, b.entries)]
         | none => []) ++ [(s.nextId, [item])] := by
  have hreach : ∀ b : Batch τ, b.size = so.calculate item →
      thresholdReached opts b = true := by
    intro b hb
    have hle : so.max ≤ so.calculate item := by omega
    simp [thresholdReached, hso, hb, hle]
  cases hcur : s.current with
  | none =>
    have hcs : checkSize opts item s = .ok (so.calculate item, s) := by
      unfold checkSize
      rw [hso]
      simp [hstrict, hcur]
    refine ⟨postCheck opts
      (appendEntry item (so.calculate item) (ensureCurrent opts s)), ?_, ?_, ?_⟩
    · unfold process
      rw [hcs]
    · simp [ensureCurrent, appendEntry, postCheck, hcur, hreach, release]
    · simp [ensureCurrent, appendEntry, postCheck, hcur, hreach, release]
  | some c =>
    have hrel : c.size + so.calculate item > so.max := by
      have := hnn c hcur
      omega
    have hcs : checkSize opts item s = .ok (so.calculate item, release s) := by
      unfold checkSize
      rw [hso]
      simp [hstrict, hcur, hrel]
    refine ⟨postCheck opts (appendEntry item (so.calculate item)
      (ensureCurrent opts (release s))), ?_, ?_, ?_⟩
    · unfold process
      rw [hcs]
    · simp [release, ensureCurrent, appendEntry, postCheck, hcur, hreach]
    · simp [release, ensureCurrent, appendEntry, postCheck, hcur, hreach]

/-- Concrete instance of `C6_nonstrict_oversize`: `size.max = 2`, the item
itself as its size, non-strict; submitting `3` from the initial state
dispatches it alone. -/
theorem C6_nonstrict_oversize_witness :
    (process { size := some { max := 2, calculate := fun n => n, strict := false } }
      3 (initState : PState Int Nat Nat)).map
        (fun s => (s.current, s.dispatched)) = .ok (none, [(0, [3])]) := by
  obtain ⟨s', h1, h2, h3⟩ := C6_nonstrict_oversize
    { size := some { max := 2, calculate := fun n => n, strict := false } } 3
    (initState : PState Int Nat Nat)
    { max := 2, calculate := fun n => n, strict := false } rfl rfl (by decide)
    (by intro b hb; simp [initState] at hb)
  rw [h1]
  simp [Except.map, h2]
  rw [h3]
  simp [initState]

/-! ### Machine invariants -/

/-- Identities of the batches passed to the processing function so far. -/
def dispatchedIds (s : PState τ α ε) : List Nat := s.dispatched.map Prod.fst

/-- Identities of the dispatched batches whose processing function has not
yet settled. -/
def inFlightIds (s : PState τ α ε) : List Nat := s.inFlight.map Prod.fst

/-- Invariants maintained by every event of the machine. -/
structure Inv (s : PState τ α ε) : Prop where
  boundCurrent : ∀ b, s.current = some b → b.id < s.nextId
  boundRegistry : ∀ i ∈ s.registry, i < s.nextId
  boundDispatched : ∀ i ∈ dispatchedIds s, i < s.nextId
  currentFresh : ∀ b, s.current = some b → b.id ∉ dispatchedIds s
  dispatchedNodup : (dispatchedIds s).Nodup
  inFlightSub : ∀ p ∈ s.inFlight, p ∈ s.dispatched
  inFlightNodup : (inFlightIds s).Nodup
  signalledSub : ∀ i ∈ s.signalled, i ∈ dispatchedIds s
  inFlightNotSignalled : ∀ i ∈ inFlightIds s, i ∉ s.signalled
  signalledNodup : s.signalled.Nodup
  outcomesKeys : s.outcomes.map Prod.fst = s.signalled
  outcomesLen : ∀ p ∈ s.outcomes,
    ∃ items, (p.1, items) ∈ s.dispatched ∧ p.2.length = items.length
  registryComplete : ∀ i, i < s.nextId → i ∈ s.registry ∨ i ∈ s.signalled
  currentRegistered : ∀ b, s.current = some b → b.id ∈ s.registry
  inFlightRegistered : ∀ i ∈ inFlightIds s, i ∈ s.registry
  timersSub : ∀ i ∈ s.timers, ∃ b, s.current = some b ∧ b.id = i
  timersNodup : s.timers.Nodup
  currentNonempty : ∀ b, s.current = some b → b.entries ≠ []
  dispatchedNonempty : ∀ p ∈ s.dispatched, p.2 ≠ []

/-- Membership of an in-flight id among the dispatched ids. -/
theorem inFlightIds_sub_dispatchedIds (s : PState τ α ε)
    (h : ∀ p ∈ s.inFlight, p ∈ s.dispatched) :
    ∀ i ∈ inFlightIds s, i ∈ dispatchedIds s := by
  intro i hi
  obtain ⟨p, hp, hpi⟩ := List.mem_map.mp hi
  exact List.mem_map.mpr ⟨p, h p hp, hpi⟩

/-- A nodup list whose elements are all equal to `a` is empty or `[a]`. -/
theorem eq_nil_or_singleton_of_all_eq {l : List Nat} {a : Nat}
    (h : ∀ i ∈ l, i = a) (hnd : l.Nodup) : l = [] ∨ l = [a] := by
  cases l with
  | nil => exact Or.inl rfl
  | cons x rest =>
    have hx : x = a := h x (List.mem_cons_self x rest)
    right
    cases rest with
    | nil => rw [hx]
    | cons y rest' =>
      exfalso
      have hy : y = a := h y (by simp)
      rw [List.nodup_cons] at hnd
      exact hnd.1 (by simp [hx, hy])

/-- The invariant holds at construction. -/
theorem inv_initState : Inv (initState : PState τ α ε) := by
  constructor <;> simp [initState, dispatchedIds, inFlightIds]

/-- The operation `release` preserves the invariant. -/
theorem inv_release (s : PState τ α ε) (h : Inv s) : Inv (release s) := by
  cases hcur : s.current with
  | none =>
    have : release s = s := by simp [release, hcur]
    rw [this]
    exact h
  | some b =>
    have hbid := h.boundCurrent b hcur
    have hfresh := h.currentFresh b hcur
    have hreg := h.currentRegistered b hcur
    have hne := h.currentNonempty b hcur
    have htim : s.timers = [] ∨ s.timers = [b.id] := by
      apply eq_nil_or_singleton_of_all_eq _ h.timersNodup
      intro i hi
      obtain ⟨b', hb', hbi⟩ := h.timersSub i hi
      rw [hcur] at hb'
      cases hb'
      exact hbi.symm
    have hrel : release s =
        { s with
          current := none,
          timers := s.timers.erase b.id,
          dispatched := s.dispatched ++ [(b.id, b.entries)],
          inFlight := s.inFlight ++ [(b.id, b.entries)] } := by
      simp [release, hcur]
    rw [hrel]
    have hdisp : dispatchedIds
        ({ s with
          current := none,
          timers := s.timers.erase b.id,
          dispatched := s.dispatched ++ [(b.id, b.entries)],
          inFlight := s.inFlight ++ [(b.id, b.entries)] } : PState τ α ε) =
        dispatchedIds s ++ [b.id] := by
      simp [dispatchedIds]
    have hinf : inFlightIds
        ({ s with
          current := none,
          timers := s.timers.erase b.id,
          dispatched := s.dispatched ++ [(b.id, b.entries)],
          inFlight := s.inFlight ++ [(b.id, b.entries)] } : PState τ α ε) =
        inFlightIds s ++ [b.id] := by
      simp [inFlightIds]
    constructor
    · intro b' hb'
      exact absurd hb' (by simp)
    · exact h.boundRegistry
    · rw [hdisp]
      intro i hi
      rcases List.mem_append.mp hi with hi | hi
      · exact h.boundDispatched i hi
      · rw [List.mem_singleton.mp hi]
        exact hbid
    · intro b' hb'
      exact absurd hb' (by simp)
    · rw [hdisp]
      simp [List.nodup_append, h.dispatchedNodup, hfresh]
    · intro p hp
      rcases List.mem_append.mp hp with hp | hp
      · exact List.mem_append.mpr (Or.inl (h.inFlightSub p hp))
      · exact List.mem_append.mpr (Or.inr hp)
    · rw [hinf]
      have hbi : b.id ∉ inFlightIds s := fun hmem =>
        hfresh (inFlightIds_sub_dispatchedIds s h.inFlightSub b.id hmem)
      simp [List.nodup_append, h.inFlightNodup, hbi]
    · rw [hdisp]
      intro i hi
      exact List.mem_append.mpr (Or.inl (h.signalledSub i hi))
    · rw [hinf]
      intro i hi
      rcases List.mem_append.mp hi with hi | hi
      · exact h.inFlightNotSignalled i hi
      · rw [List.mem_singleton.mp hi]
        intro hmem
        exact hfresh (h.signalledSub b.id hmem)
    · exact h.signalledNodup
    · exact h.outcomesKeys
    · intro p hp
      obtain ⟨items, hmem, hlen⟩ := h.outcomesLen p hp
      exact ⟨items, List.mem_append.mpr (Or.inl hmem), hlen⟩
    · exact h.registryComplete
    · intro b' hb'
      exact absurd hb' (by simp)
    · rw [hinf]
      intro i hi
      rcases List.mem_append.mp hi with hi | hi
      · exact h.inFlightRegistered i hi
      · rw [List.mem_singleton.mp hi]
        exact hreg
    · intro i hi
      exfalso
      rcases htim with ht | ht <;> rw [ht] at hi <;> simp at hi
    · exact h.timersNodup.erase b.id
    · intro b' hb'
      exact absurd hb' (by simp)
    · intro p hp
      rcases List.mem_append.mp hp with hp | hp
      · exact h.dispatchedNonempty p hp
      · rw [List.mem_singleton.mp hp]
        exact hne

/-- The operation `checkSize` either leaves the state alone or pre-releases the open
batch. -/
theorem checkSize_ok_cases (opts : ThresholdOptions τ) (item : τ)
    (s s₁ : PState τ α ε) (sz : Int)
    (h : checkSize opts item s = .ok (sz, s₁)) : s₁ = s ∨ s₁ = release s := by
  cases hos : opts.size with
  | none =>
    have hcs : checkSize opts item s = .ok (0, s) := by
      simp [checkSize, hos]
    rw [hcs] at h
    simp at h
    exact Or.inl h.2.symm
  | some so =>
    by_cases hstr : (decide (so.calculate item > so.max) && so.strict) = true
    · have hcs : checkSize opts item s =
          .error { size := so.calculate item, max := so.max } := by
        simp [checkSize, hos, hstr]
      rw [hcs] at h
      cases h
    · simp only [Bool.not_eq_true] at hstr
      cases hcur : s.current with
      | none =>
        have hcs : checkSize opts item s = .ok (so.calculate item, s) := by
          simp [checkSize, hos, hstr, hcur]
        rw [hcs] at h
        simp at h
        exact Or.inl h.2.symm
      | some c =>
        by_cases hover : c.size + so.calculate item > so.max
        · have hcs : checkSize opts item s =
              .ok (so.calculate item, release s) := by
            simp [checkSize, hos, hstr, hcur, hover]
          rw [hcs] at h
          simp at h
          exact Or.inr h.2.symm
        · have hcs : checkSize opts item s = .ok (so.calculate item, s) := by
            simp [checkSize, hos, hstr, hcur, hover]
          rw [hcs] at h
          simp at h
          exact Or.inl h.2.symm

/-- Opening a batch (if needed) and appending the new entry preserves the
invariant. -/
theorem inv_openAppend (opts : ThresholdOptions τ) (item : τ) (sz : Int)
    (s : PState τ α ε) (h : Inv s) :
    Inv (appendEntry item sz (ensureCurrent opts s)) := by
  cases hcur : s.current with
  | some c =>
    have he : ensureCurrent opts s = s := by simp [ensureCurrent, hcur]
    have ha : appendEntry item sz s =
        { s with
          current := some (Batch.mk c.id (c.entries ++ [item]) (c.size + sz)) } := by
      simp [appendEntry, hcur]
    rw [he, ha]
    constructor
    · intro b' hb'
      simp only [Option.some.injEq] at hb'
      rw [← hb']
      exact h.boundCurrent c hcur
    · exact h.boundRegistry
    · exact h.boundDispatched
    · intro b' hb'
      simp only [Option.some.injEq] at hb'
      rw [← hb']
      exact h.currentFresh c hcur
    · exact h.dispatchedNodup
    · exact h.inFlightSub
    · exact h.inFlightNodup
    · exact h.signalledSub
    · exact h.inFlightNotSignalled
    · exact h.signalledNodup
    · exact h.outcomesKeys
    · exact h.outcomesLen
    · exact h.registryComplete
    · intro b' hb'
      simp only [Option.some.injEq] at hb'
      rw [← hb']
      exact h.currentRegistered c hcur
    · exact h.inFlightRegistered
    · intro i hi
      obtain ⟨b', hb', hbi⟩ := h.timersSub i hi
      rw [hcur] at hb'
      cases hb'
      exact ⟨_, rfl, hbi⟩
    · exact h.timersNodup
    · intro b' hb'
      simp only [Option.some.injEq] at hb'
      rw [← hb']
      simp
    · exact h.dispatchedNonempty
  | none =>
    have htim : s.timers = [] := by
      rw [List.eq_nil_iff_forall_not_mem]
      intro i hi
      obtain ⟨b', hb', _⟩ := h.timersSub i hi
      rw [hcur] at hb'
      cases hb'
    have hea : appendEntry item sz (ensureCurrent opts s) =
        { s with
          current := some { id := s.nextId, entries := [item], size := 0 + sz },
          registry := s.registry ++ [s.nextId],
          timers := if opts.delay.isSome then s.timers ++ [s.nextId] else s.timers,
          nextId := s.nextId + 1 } := by
      simp [ensureCurrent, appendEntry, hcur]
    rw [hea]
    constructor
    · intro b' hb'
      simp at hb'
      simp [← hb']
    · intro i hi
      rcases List.mem_append.mp hi with hi | hi
      · exact Nat.lt_succ_of_lt (h.boundRegistry i hi)
      · rw [List.mem_singleton.mp hi]
        exact Nat.lt_succ_self _
    · intro i hi
      exact Nat.lt_succ_of_lt (h.boundDispatched i hi)
    · intro b' hb' hmem
      simp at hb'
      rw [← hb'] at hmem
      have hlt := h.boundDispatched _ hmem
      simp at hlt
    · exact h.dispatchedNodup
    · exact h.inFlightSub
    · exact h.inFlightNodup
    · exact h.signalledSub
    · exact h.inFlightNotSignalled
    · exact h.signalledNodup
    · exact h.outcomesKeys
    · exact h.outcomesLen
    · intro i hi
      rcases Nat.lt_succ_iff_lt_or_eq.mp hi with hi | hi
      · rcases h.registryComplete i hi with hr | hr
        · exact Or.inl (List.mem_append.mpr (Or.inl hr))
        · exact Or.inr hr
      · exact Or.inl (List.mem_append.mpr (Or.inr (by simp [hi])))
    · intro b' hb'
      simp at hb'
      rw [← hb']
      exact List.mem_append.mpr (Or.inr (by simp))
    · intro i hi
      exact List.mem_append.mpr (Or.inl (h.inFlightRegistered i hi))
    · intro i hi
      simp only [htim] at hi
      refine ⟨_, rfl, ?_⟩
      rcases hdel : opts.delay.isSome with _ | _ <;> rw [hdel] at hi <;>
        simp at hi
      exact hi.symm
    · simp only [htim]
      rcases hdel : opts.delay.isSome with _ | _ <;> simp
    · intro b' hb'
      simp at hb'
      simp [← hb']
    · exact h.dispatchedNonempty

/-- The operation `postCheck` preserves the invariant. -/
theorem inv_postCheck (opts : ThresholdOptions τ) (s : PState τ α ε)
    (h : Inv s) : Inv (postCheck opts s) := by
  unfold postCheck
  split
  · split
    · exact inv_release s h
    · exact h
  · exact h

/-- A successful `process` preserves the invariant. -/
theorem inv_process (opts : ThresholdOptions τ) (item : τ)
    (s s' : PState τ α ε) (h : Inv s) (hp : process opts item s = .ok s') :
    Inv s' := by
  unfold process at hp
  split at hp
  · cases hp
  · rename_i sz s₁ heq
    simp only [Except.ok.injEq] at hp
    rw [← hp]
    rcases checkSize_ok_cases opts item s s₁ sz heq with h1 | h1 <;> rw [h1]
    · exact inv_postCheck opts _ (inv_openAppend opts item sz s h)
    · exact inv_postCheck opts _
        (inv_openAppend opts item sz (release s) (inv_release s h))

/-- Clearing timers (a sub-step of `fireTimer`) preserves the invariant. -/
theorem inv_timersErase (i : Nat) (s : PState τ α ε) (h : Inv s) :
    Inv ({ s with timers := s.timers.erase i } : PState τ α ε) := by
  constructor
  · exact h.boundCurrent
  · exact h.boundRegistry
  · exact h.boundDispatched
  · exact h.currentFresh
  · exact h.dispatchedNodup
  · exact h.inFlightSub
  · exact h.inFlightNodup
  · exact h.signalledSub
  · exact h.inFlightNotSignalled
  · exact h.signalledNodup
  · exact h.outcomesKeys
  · exact h.outcomesLen
  · exact h.registryComplete
  · exact h.currentRegistered
  · exact h.inFlightRegistered
  · intro j hj
    exact h.timersSub j (List.mem_of_mem_erase hj)
  · exact h.timersNodup.erase i
  · exact h.currentNonempty
  · exact h.dispatchedNonempty

/-- The operation `fireTimer` preserves the invariant. -/
theorem inv_fireTimer (i : Nat) (s : PState τ α ε) (h : Inv s) :
    Inv (fireTimer i s) := by
  by_cases hmem : i ∈ s.timers
  · cases hcur : s.current with
    | none =>
      have heq : fireTimer i s =
          ({ s with timers := s.timers.erase i } : PState τ α ε) := by
        simp [fireTimer, hmem, hcur]
      rw [heq]
      exact inv_timersErase i s h
    | some b =>
      by_cases hbi : b.id = i
      · have heq : fireTimer i s =
            release ({ s with timers := s.timers.erase i } : PState τ α ε) := by
          simp [fireTimer, hmem, hcur, hbi]
        rw [heq]
        exact inv_release _ (inv_timersErase i s h)
      · have heq : fireTimer i s =
            ({ s with timers := s.timers.erase i } : PState τ α ε) := by
          simp [fireTimer, hmem, hcur, hbi]
        rw [heq]
        exact inv_timersErase i s h
  · have heq : fireTimer i s = s := by simp [fireTimer, hmem]
    rw [heq]
    exact h

/-- The operation `complete` preserves the invariant. -/
theorem inv_complete (i : Nat) (o : FnOutcome α ε) (s : PState τ α ε)
    (h : Inv s) : Inv (complete i o s) := by
  unfold complete
  split
  · exact h
  · rename_i p hfind
    have hpmem : p ∈ s.inFlight := List.mem_of_find?_eq_some hfind
    have hpi : p.1 = i := by
      have := List.find?_some hfind
      exact of_decide_eq_true this
    have hIdmem : i ∈ inFlightIds s := by
      rw [← hpi]
      exact List.mem_map.mpr ⟨p, hpmem, rfl⟩
    have hInotsig : i ∉ s.signalled := h.inFlightNotSignalled i hIdmem
    have hIdisp : i ∈ dispatchedIds s :=
      inFlightIds_sub_dispatchedIds s h.inFlightSub i hIdmem
    constructor
    · exact h.boundCurrent
    · exact h.boundRegistry
    · exact h.boundDispatched
    · exact h.currentFresh
    · exact h.dispatchedNodup
    · intro q hq
      simp only [List.mem_filter] at hq
      exact h.inFlightSub q hq.1
    · apply List.Nodup.sublist _ h.inFlightNodup
      exact List.Sublist.map Prod.fst (List.filter_sublist s.inFlight)
    · intro j hj
      rcases List.mem_append.mp hj with hj | hj
      · exact h.signalledSub j hj
      · rw [List.mem_singleton.mp hj]
        exact hIdisp
    · intro j hj hsig
      obtain ⟨q, hq, hqj⟩ := List.mem_map.mp hj
      simp only [List.mem_filter] at hq
      have hqi : j ≠ i := by
        rw [← hqj]
        simpa using hq.2
      rcases List.mem_append.mp hsig with hsig | hsig
      · exact h.inFlightNotSignalled j
          (List.mem_map.mpr ⟨q, hq.1, hqj⟩) hsig
      · exact hqi (List.mem_singleton.mp hsig)
    · simp [List.nodup_append, h.signalledNodup, hInotsig]
    · simp only [List.map_append]
      rw [h.outcomesKeys]
      rfl
    · intro q hq
      rcases List.mem_append.mp hq with hq | hq
      · exact h.outcomesLen q hq
      · rw [List.mem_singleton.mp hq]
        refine ⟨p.2, ?_, by rw [dispatchSettlements_length]⟩
        rw [← hpi]
        exact h.inFlightSub p hpmem
    · intro j hj
      rcases h.registryComplete j hj with hr | hr
      · exact Or.inl hr
      · exact Or.inr (List.mem_append.mpr (Or.inl hr))
    · exact h.currentRegistered
    · intro j hj
      obtain ⟨q, hq, hqj⟩ := List.mem_map.mp hj
      simp only [List.mem_filter] at hq
      exact h.inFlightRegistered j (List.mem_map.mpr ⟨q, hq.1, hqj⟩)
    · exact h.timersSub
    · exact h.timersNodup
    · exact h.currentNonempty
    · exact h.dispatchedNonempty

/-- The operation `unregister` preserves the invariant. -/
theorem inv_unregister (i : Nat) (s : PState τ α ε) (h : Inv s) :
    Inv (unregister i s) := by
  unfold unregister
  split
  · rename_i hsig
    constructor
    · exact h.boundCurrent
    · intro j hj
      exact h.boundRegistry j (List.mem_of_mem_erase hj)
    · exact h.boundDispatched
    · exact h.currentFresh
    · exact h.dispatchedNodup
    · exact h.inFlightSub
    · exact h.inFlightNodup
    · exact h.signalledSub
    · exact h.inFlightNotSignalled
    · exact h.signalledNodup
    · exact h.outcomesKeys
    · exact h.outcomesLen
    · intro j hj
      rcases h.registryComplete j hj with hr | hr
      · by_cases hji : j = i
        · exact Or.inr (hji ▸ hsig)
        · exact Or.inl ((List.mem_erase_of_ne hji).mpr hr)
      · exact Or.inr hr
    · intro b hb
      have hbreg := h.currentRegistered b hb
      have hbi : b.id ≠ i := by
        intro hcontra
        exact h.currentFresh b hb (hcontra ▸ h.signalledSub i hsig)
      exact (List.mem_erase_of_ne hbi).mpr hbreg
    · intro j hj
      have hjreg := h.inFlightRegistered j hj
      have hji : j ≠ i := by
        intro hcontra
        exact h.inFlightNotSignalled j hj (hcontra ▸ hsig)
      exact (List.mem_erase_of_ne hji).mpr hjreg
    · exact h.timersSub
    · exact h.timersNodup
    · exact h.currentNonempty
    · exact h.dispatchedNonempty
  · exact h

/-- Every event preserves the invariant. -/
theorem inv_exec (opts : ThresholdOptions τ) (e : Event τ α ε)
    (s : PState τ α ε) (h : Inv s) : Inv (exec opts e s) := by
  cases e with
  | proc item =>
    cases hp : process opts item s with
    | ok s' =>
      have heq : exec opts (.proc item) s = s' := by simp [exec, hp]
      rw [heq]
      exact inv_process opts item s s' h hp
    | error e' =>
      have heq : exec opts (.proc item) s = s := by simp [exec, hp]
      rw [heq]
      exact h
  | rel => exact inv_release s h
  | flushEv => exact inv_release s h
  | timer i => exact inv_fireTimer i s h
  | complete i o => exact inv_complete i o s h
  | unreg i => exact inv_unregister i s h

/-- The invariant holds after any event sequence. -/
theorem inv_run (opts : ThresholdOptions τ) (evs : List (Event τ α ε))
    (s : PState τ α ε) (h : Inv s) : Inv (run opts evs s) := by
  induction evs generalizing s with
  | nil => exact h
  | cons e evs ih => exact ih _ (inv_exec opts e s h)

/-- Every reachable state satisfies the invariant. -/
theorem reachable_inv (opts : ThresholdOptions τ) (s : PState τ α ε)
    (h : Reachable opts s) : Inv s := by
  obtain ⟨evs, rfl⟩ := h
  exact inv_run opts evs _ inv_initState

/-! ### Claims about flush, completion signals, timers, and empty batches -/

/-- Folding `all` over a snapshot ignores a signal appended for an id outside the
snapshot. -/
theorem all_mem_append_singleton (snap sig : List Nat) (j : Nat)
    (hj : j ∉ snap) :
    snap.all (fun i => decide (i ∈ sig ++ [j])) =
      snap.all (fun i => decide (i ∈ sig)) := by
  induction snap with
  | nil => rfl
  | cons x xs ih =>
    simp only [List.mem_cons, not_or] at hj
    simp only [List.all_cons, ih hj.2]
    congr 1
    rw [decide_eq_decide]
    have hxj : x ≠ j := fun hh => hj.1 hh.symm
    simp [List.mem_append, hxj]

/-- C7: `flush` snapshots the registry (which, in any reachable state,
contains the open batch and every in-flight batch) and then releases the
open batch; the returned future resolves exactly when every snapshotted
batch's completion signal has fired; every snapshotted id predates the
snapshot (so batches created by later submissions, which receive fresh
larger ids, are not awaited), signalling a batch outside the snapshot never
changes the flush future's resolution, and a batch's completion fires its
signal whatever the outcome — failure included — so flush resolves
regardless of whether any batch failed. -/
theorem C7_flush_barrier (opts : ThresholdOptions τ) (s : PState τ α ε) :
    ((flush s).1 = s.registry ∧ (flush s).2 = release s) ∧
    (Reachable opts s →
      (∀ b, s.current = some b → b.id ∈ (flush s).1) ∧
      (∀ i ∈ inFlightIds s, i ∈ (flush s).1) ∧
      (∀ i ∈ (flush s).1, i < s.nextId)) ∧
    (∀ (snap : List Nat) (t : PState τ α ε),
      flushResolved snap t = true ↔ ∀ i ∈ snap, i ∈ t.signalled) ∧
    (∀ (snap : List Nat) (j : Nat) (o : FnOutcome α ε) (t : PState τ α ε),
      j ∉ snap → flushResolved snap (complete j o t) = flushResolved snap t) ∧
    (∀ (j : Nat) (o : FnOutcome α ε) (t : PState τ α ε) (p : Nat × List τ),
      p ∈ t.inFlight → p.1 = j → j ∈ (complete j o t).signalled) := by
  refine ⟨⟨rfl, rfl⟩, ?_, ?_, ?_, ?_⟩
  · intro h
    have hInv := reachable_inv opts s h
    exact ⟨hInv.currentRegistered, hInv.inFlightRegistered, hInv.boundRegistry⟩
  · intro snap t
    simp [flushResolved, List.all_eq_true]
  · intro snap j o t hj
    cases hfind : t.inFlight.find? (fun q => q.1 = j) with
    | none => simp [complete, hfind]
    | some q =>
      have hsig : (complete j o t).signalled = t.signalled ++ [j] := by
        simp [complete, hfind]
      unfold flushResolved
      rw [hsig]
      exact all_mem_append_singleton snap t.signalled j hj
  · intro j o t p hp hpj
    cases hfind : t.inFlight.find? (fun q => q.1 = j) with
    | none =>
      exfalso
      have := List.find?_eq_none.mp hfind p hp
      simp [hpj] at this
    | some q =>
      simp [complete, hfind]

/-- Concrete instance of `C7_flush_barrier`: one batch submitted and
released; its id is in the flush snapshot, and completing it with a failure
still fires its signal. -/
theorem C7_flush_barrier_witness :
    (flush (run ({} : ThresholdOptions Nat) [.proc 5, .rel]
      (initState : PState Nat Nat Nat))).1 =
      (run ({} : ThresholdOptions Nat) [.proc 5, .rel]
        (initState : PState Nat Nat Nat)).registry ∧
    (0 : Nat) ∈ (flush (run ({} : ThresholdOptions Nat) [.proc 5, .rel]
      (initState : PState Nat Nat Nat))).1 ∧
    (0 : Nat) ∈ (complete 0 (.failure .undef)
      (flush (run ({} : ThresholdOptions Nat) [.proc 5, .rel]
        (initState : PState Nat Nat Nat))).2).signalled := by
  have hs := C7_flush_barrier ({} : ThresholdOptions Nat)
    (run ({} : ThresholdOptions Nat) [.proc 5, .rel]
      (initState : PState Nat Nat Nat))
  refine ⟨hs.1.1, ?_, ?_⟩
  · exact (hs.2.1 ⟨[.proc 5, .rel], rfl⟩).2.1 0 (by decide)
  · exact hs.2.2.2.2 0 (.failure .undef) _ (0, [5]) (by decide) rfl

/-- C8: a batch's completion signal fires at most once (signalled ids stay
duplicate-free), and when it has fired every entry of the batch has a
recorded settlement (one per entry); a batch is in the registry from its
creation (the open batch is always registered), and an id can only be
missing from the registry after its completion signal has fired. -/
theorem C8_completion_signal (opts : ThresholdOptions τ) (s : PState τ α ε)
    (h : Reachable opts s) :
    s.signalled.Nodup ∧
    (∀ i ∈ s.signalled, ∃ items sets, (i, items) ∈ s.dispatched ∧
      (i, sets) ∈ s.outcomes ∧ sets.length = items.length) ∧
    (∀ i, i < s.nextId → i ∉ s.registry → i ∈ s.signalled) ∧
    (∀ b, s.current = some b → b.id ∈ s.registry) := by
  have hInv := reachable_inv opts s h
  refine ⟨hInv.signalledNodup, ?_, ?_, hInv.currentRegistered⟩
  · intro i hi
    rw [← hInv.outcomesKeys] at hi
    obtain ⟨p, hp, hpi⟩ := List.mem_map.mp hi
    obtain ⟨items, hmem, hlen⟩ := hInv.outcomesLen p hp
    have hpeq : (i, p.2) = p := by
      rw [← hpi]
    exact ⟨items, p.2, hpi ▸ hmem, hpeq ▸ hp, hlen⟩
  · intro i hlt hreg
    rcases hInv.registryComplete i hlt with hr | hr
    · exact absurd hr hreg
    · exact hr

/-- Concrete instance of `C8_completion_signal`: one batch dispatched and
completed; its signal has fired exactly once. -/
theorem C8_completion_signal_witness :
    (run ({} : ThresholdOptions Nat)
      [.proc 4, .rel, .complete 0 (.success .nonIndexable)]
      (initState : PState Nat Nat Nat)).signalled.Nodup ∧
    (0 : Nat) ∈ (run ({} : ThresholdOptions Nat)
      [.proc 4, .rel, .complete 0 (.success .nonIndexable)]
      (initState : PState Nat Nat Nat)).signalled := by
  refine ⟨(C8_completion_signal ({} : ThresholdOptions Nat) _
    ⟨[.proc 4, .rel, .complete 0 (.success .nonIndexable)], rfl⟩).1, by decide⟩

/-- C9: the delay timer armed for a batch releases, upon firing, exactly
that batch, and only when it is still the currently open batch — decided by
identity of the batch handle; when the open batch's identity differs (or no
batch is open) the firing dispatches nothing and leaves the open slot
untouched; in every reachable state armed timers belong only to the
currently open batch (a batch released by another trigger had its timer
cleared), and no batch identity is ever dispatched twice. -/
theorem C9_timer_identity (opts : ThresholdOptions τ) (s : PState τ α ε)
    (i : Nat) :
    (∀ b, s.current = some b → b.id = i → i ∈ s.timers →
      fireTimer i s =
        release ({ s with timers := s.timers.erase i } : PState τ α ε)) ∧
    ((∀ b, s.current = some b → b.id ≠ i) →
      (fireTimer i s).dispatched = s.dispatched ∧
      (fireTimer i s).current = s.current) ∧
    (Reachable opts s →
      (∀ j ∈ s.timers, ∃ b, s.current = some b ∧ b.id = j) ∧
      (dispatchedIds s).Nodup) := by
  refine ⟨?_, ?_, ?_⟩
  · intro b hcur hbi hmem
    simp [fireTimer, hmem, hcur, hbi]
  · intro hne
    by_cases hmem : i ∈ s.timers
    · cases hcur : s.current with
      | none =>
        constructor <;> simp [fireTimer, hmem, hcur]
      | some b =>
        have hbi := hne b hcur
        constructor <;> simp [fireTimer, hmem, hcur, hbi]
    · constructor <;> simp [fireTimer, hmem]
  · intro h
    have hInv := reachable_inv opts s h
    exact ⟨hInv.timersSub, hInv.dispatchedNodup⟩

/-- Concrete instance of `C9_timer_identity`: the timer of the open batch
fires and releases it; a timer with a foreign identity dispatches
nothing. -/
theorem C9_timer_identity_witness :
    fireTimer 0 (PState.mk (some (Batch.mk 0 [7] 0)) [0] [0] [] [] [] [] 1 :
      PState Nat Nat Nat) =
      release (PState.mk (some (Batch.mk 0 [7] 0)) [0] ([0].erase 0) [] [] []
        [] 1 : PState Nat Nat Nat) ∧
    (fireTimer 1 (initState : PState Nat Nat Nat)).dispatched = [] ∧
    (dispatchedIds (run ({ delay := some 50 } : ThresholdOptions Nat)
      [.proc 7] (initState : PState Nat Nat Nat))).Nodup := by
  refine ⟨?_, ?_, ?_⟩
  · exact (C9_timer_identity ({} : ThresholdOptions Nat)
      (PState.mk (some (Batch.mk 0 [7] 0)) [0] [0] [] [] [] [] 1) 0).1
      (Batch.mk 0 [7] 0) rfl rfl (by decide)
  · exact ((C9_timer_identity ({} : ThresholdOptions Nat)
      (initState : PState Nat Nat Nat) 1).2.1
      (by intro b hb; simp [initState] at hb)).1
  · exact ((C9_timer_identity ({ delay := some 50 } : ThresholdOptions Nat)
      (run ({ delay := some 50 } : ThresholdOptions Nat) [.proc 7]
        (initState : PState Nat Nat Nat)) 0).2.2 ⟨[.proc 7], rfl⟩).2

/-- C10: the processing function is never invoked with an empty batch: in
every reachable state each dispatched batch is nonempty and the open batch
(created inside `process` with its first entry appended in the same call)
is nonempty, and `release` with no open batch dispatches nothing at all. -/
theorem C10_no_empty_dispatch (opts : ThresholdOptions τ) (s : PState τ α ε)
    (h : Reachable opts s) :
    (∀ p ∈ s.dispatched, p.2 ≠ []) ∧
    (∀ b, s.current = some b → b.entries ≠ []) ∧
    (s.current = none → release s = s) := by
  have hInv := reachable_inv opts s h
  refine ⟨hInv.dispatchedNonempty, hInv.currentNonempty, ?_⟩
  intro hcur
  simp [release, hcur]

/-- Concrete instance of `C10_no_empty_dispatch`: after submitting and
releasing one item, the dispatched batch is nonempty, and a further release
with no open batch is a no-op. -/
theorem C10_no_empty_dispatch_witness :
    ((0, [3]) : Nat × List Nat).2 ≠ [] ∧
    release (run ({} : ThresholdOptions Nat) [.proc 3, .rel]
      (initState : PState Nat Nat Nat)) =
      run ({} : ThresholdOptions Nat) [.proc 3, .rel] initState := by
  have h := C10_no_empty_dispatch ({} : ThresholdOptions Nat)
    (run ({} : ThresholdOptions Nat) [.proc 3, .rel]
      (initState : PState Nat Nat Nat)) ⟨[.proc 3, .rel], rfl⟩
  exact ⟨h.1 (0, [3]) (by decide), h.2.2 (by decide)⟩

end AccumulatingProcessor
